import Mathlib

/-!
# Verification of the climate-analysis coordinate utilities

Shallow embedding of the longitude/grid utilities of
`src/modules/convenient_universal.py` (functions `adjust_lon_range`,
`coordinate_pairs`, `single2list`) and of the spherical coordinate rotation
engine.  The module `coordinate_rotation.py` itself is not among the sources
(only its unit tests are), so its functions (`rotation_matrix`,
`rotate_spherical`, `north_pole_to_rotation_angles`) are modelled from the
specification, as indicated in their doc comments.
-/

open Real Matrix

/-- Elementwise form of the first `while` loop of `adjust_lon_range`
(`src/modules/convenient_universal.py`, lines 46-49): keep adding the period
to a value while it is below `start`.  The loop acts independently on each
array element, so the array-level `numpy.where` loop is the map of this
function.  The guard `0 < period` makes the recursion total; the source only
ever calls it with period `360` or `2*pi`. -/
def adjustUp {α : Type} [LinearOrderedField α] [FloorRing α]
    (start period v : α) : α :=
  if h : 0 < period ∧ v < start then adjustUp start period (v + period) else v
termination_by (⌈(start - v) / period⌉).toNat
decreasing_by
  obtain ⟨hp, hv⟩ := h
  have hne : period ≠ 0 := ne_of_gt hp
  have h1 : (start - (v + period)) / period = (start - v) / period - 1 := by
    field_simp
    ring
  have h2 : 0 < ⌈(start - v) / period⌉ :=
    Int.ceil_pos.mpr (div_pos (by linarith) hp)
  simp only [h1, Int.ceil_sub_one]
  omega

/-- Elementwise form of the second `while` loop of `adjust_lon_range`
(`src/modules/convenient_universal.py`, lines 51-54): keep subtracting the
period from a value while it is at or beyond `start + period`. -/
def adjustDown {α : Type} [LinearOrderedField α] [FloorRing α]
    (start period v : α) : α :=
  if h : 0 < period ∧ start + period ≤ v then adjustDown start period (v - period)
  else v
termination_by (⌊(v - start) / period⌋).toNat
decreasing_by
  obtain ⟨hp, hv⟩ := h
  have hne : period ≠ 0 := ne_of_gt hp
  have h1 : (v - period - start) / period = (v - start) / period - 1 := by
    field_simp
    ring
  have h2 : 1 ≤ ⌊(v - start) / period⌋ := by
    rw [Int.le_floor]
    rw [le_div_iff hp]
    push_cast
    linarith
  simp only [h1, Int.floor_sub_one]
  omega

/-- The numeric core of `adjust_lon_range`: both while loops applied in
sequence to every element of the input sequence. -/
def adjust_core {α : Type} [LinearOrderedField α] [FloorRing α]
    (lons : List α) (start period : α) : List α :=
  lons.map (fun v => adjustDown start period (adjustUp start period v))

/-- `adjust_lon_range` of `src/modules/convenient_universal.py` (lines 29-56)
on an already sequence-shaped input: the interval width is `2*pi` for radians
input and `360` for degrees, and both adjustment loops are run. -/
noncomputable def adjust_lon_range (lons : List ℝ) (radians : Bool)
    (start : ℝ) : List ℝ :=
  adjust_core lons start (if radians then 2 * π else 360)

/-- One iteration of the first `while` loop of `adjust_lon_range` at the
array level, exactly as `numpy.where(lons < start, lons + interval360, lons)`
(`src/modules/convenient_universal.py`, line 48). -/
noncomputable def stepUp (start interval : ℝ) (lons : List ℝ) : List ℝ :=
  lons.map (fun v => if v < start then v + interval else v)

/-- One iteration of the second `while` loop of `adjust_lon_range` at the
array level, exactly as `numpy.where(lons >= end, lons - interval360, lons)`
(`src/modules/convenient_universal.py`, line 53). -/
noncomputable def stepDown (start interval : ℝ) (lons : List ℝ) : List ℝ :=
  lons.map (fun v => if start + interval ≤ v then v - interval else v)

/-- `coordinate_pairs` of `src/modules/convenient_universal.py` (lines
159-166): `numpy.meshgrid(lon_axis, lat_axis)` followed by row-major
flattening of both meshes.  The latitude mesh repeats each latitude value
once per longitude; the longitude mesh repeats the whole longitude axis once
per latitude. -/
def coordinate_pairs {α β : Type} (lat_axis : List α) (lon_axis : List β) :
    List α × List β :=
  ((lat_axis.map (fun la => List.replicate lon_axis.length la)).flatten,
   (List.replicate lat_axis.length lon_axis).flatten)

/-- The universe of Python values relevant to `single2list`
(`src/modules/convenient_universal.py`, lines 286-302): lists, tuples and
numpy arrays (recognised by exact type check), strings, scalars (which have
no `len()`), and other sized containers such as sets and dicts. -/
inductive PyObj : Type where
  | pyList (xs : List PyObj)
  | pyTuple (xs : List PyObj)
  | ndarray (xs : List PyObj)
  | pyStr (s : String)
  | pyFloat (x : ℚ)
  | pySet (xs : List PyObj)
  | pyDict (n : Nat)

/-- Whether `len(item)` succeeds in Python for this value: everything in the
universe except a bare scalar supports `len()`. -/
def hasLen : PyObj → Bool
  | .pyFloat _ => false
  | _ => true

/-- Whether the value is one of the sized containers that `single2list`
does not special-case (a set or a dict). -/
def isSetOrDict : PyObj → Bool
  | .pySet _ => true
  | .pyDict _ => true
  | _ => false

/-- The `numpy.array(output)` conversion applied by `single2list` when
`numpy_array=True` (`src/modules/convenient_universal.py`, lines 299-300):
a list or tuple becomes an array, an array is returned unchanged. -/
def toNdarray : PyObj → PyObj
  | .pyList xs => .ndarray xs
  | .pyTuple xs => .ndarray xs
  | .ndarray xs => .ndarray xs
  | o => .ndarray [o]

/-- `single2list` of `src/modules/convenient_universal.py` (lines 286-302).
Lists, tuples and arrays pass through; a string or a value without `len()`
is wrapped as the one-element list `[item,]`; for any other value `len(item)`
succeeds, so no branch assigns `output` and the subsequent read of `output`
fails (`UnboundLocalError`) — modelled as `none`. -/
def single2list (item : PyObj) (numpy_array : Bool) : Option PyObj :=
  let output? : Option PyObj :=
    match item with
    | .pyList _ => some item
    | .pyTuple _ => some item
    | .ndarray _ => some item
    | .pyStr _ => some (.pyList [item])
    | .pyFloat _ => some (.pyList [item])
    | .pySet _ => none
    | .pyDict _ => none
  match output? with
  | none => none
  | some o => if numpy_array then some (toNdarray o) else some o

/-- Read a Python list of numbers as a Lean list of rationals; fails if any
element is not a scalar. -/
def asNums : List PyObj → Option (List ℚ)
  | [] => some []
  | .pyFloat x :: rest => (asNums rest).map (fun t => x :: t)
  | _ => none

/-- Extract the numeric contents of a sequence-shaped Python value. -/
def objNums : PyObj → Option (List ℚ)
  | .pyList xs => asNums xs
  | .pyTuple xs => asNums xs
  | .ndarray xs => asNums xs
  | _ => none

/-- The composition performed by `adjust_lon_range` on an arbitrary Python
input (`src/modules/convenient_universal.py`, line 41): first
`single2list(lons, numpy_array=True)`, then the numeric adjustment loops on
the resulting array, here over rational inputs with the period as a
parameter. -/
def normalize_py (item : PyObj) (period start : ℚ) : Option (List ℚ) :=
  (single2list item true).bind fun o => (objNums o).map fun xs =>
    xs.map fun v => adjustDown start period (adjustUp start period v)

/-- Modelled from the spec: elementary rotation about the z-axis, in the
zxz convention of §4.2 whose entries are pinned down by the hand-computed
matrices of `unittest_coordinate_rotation.py` (lines 102-145);
`coordinate_rotation.py` itself is not among the sources. -/
noncomputable def Rz (a : ℝ) : Matrix (Fin 3) (Fin 3) ℝ :=
  !![Real.cos a, Real.sin a, 0; -Real.sin a, Real.cos a, 0; 0, 0, 1]

/-- Modelled from the spec: elementary rotation about the x-axis, companion
to `Rz` (spec §4.2); `coordinate_rotation.py` itself is not among the
sources. -/
noncomputable def Rx (a : ℝ) : Matrix (Fin 3) (Fin 3) ℝ :=
  !![1, 0, 0; 0, Real.cos a, Real.sin a; 0, -Real.sin a, Real.cos a]

/-- Modelled from the spec: `rotation_matrix(phi, theta, psi, inverse)` of
the missing `coordinate_rotation.py`, per §4.2 the product of the three
elementary rotations (about z by phi, about the resulting x by theta, about
the final z by psi), with the inverse variant composed in reverse order with
negated angles. -/
noncomputable def rotation_matrix (phi theta psi : ℝ) (inverse : Bool) :
    Matrix (Fin 3) (Fin 3) ℝ :=
  if inverse then Rz (-phi) * Rx (-theta) * Rz (-psi)
  else Rz psi * Rx theta * Rz phi

/-- Modelled from the spec: the validation of §4.2/§7 that every Euler angle
lies in `[0, 2*pi)`, raising `InvalidAngleError` (here: `none`) before any
computation otherwise; `coordinate_rotation.py` itself is not among the
sources. -/
noncomputable def rotation_matrix_checked (phi theta psi : ℝ)
    (inverse : Bool) : Option (Matrix (Fin 3) (Fin 3) ℝ) :=
  if (0 ≤ phi ∧ phi < 2 * π) ∧ (0 ≤ theta ∧ theta < 2 * π) ∧
      (0 ≤ psi ∧ psi < 2 * π) then
    some (rotation_matrix phi theta psi inverse)
  else none

/-- Degrees to radians. -/
noncomputable def deg2rad (d : ℝ) : ℝ := d * (π / 180)

/-- Radians to degrees. -/
noncomputable def rad2deg (r : ℝ) : ℝ := r * (180 / π)

/-- The canonical representative of a degree value in `[0, 360)`, used when
reporting rotated longitudes (spec §4.4). -/
noncomputable def norm360 (x : ℝ) : ℝ := x - 360 * ⌊x / 360⌋

/-- Modelled from the spec: conversion of a (lat, lon) pair in degrees to a
Cartesian unit vector (spec §3, `CartesianPoint`); `coordinate_rotation.py`
itself is not among the sources. -/
noncomputable def latlon_to_cart (lat lon : ℝ) : Fin 3 → ℝ :=
  ![Real.cos (deg2rad lat) * Real.cos (deg2rad lon),
    Real.cos (deg2rad lat) * Real.sin (deg2rad lon),
    Real.sin (deg2rad lat)]

/-- Modelled from the spec: latitude in degrees recovered from a Cartesian
vector; `coordinate_rotation.py` itself is not among the sources. -/
noncomputable def cart_to_lat (v : Fin 3 → ℝ) : ℝ :=
  rad2deg (Real.arcsin (v 2))

/-- Modelled from the spec: longitude in degrees recovered from a Cartesian
vector via the two-argument arctangent (the angle of the complex number
`x + y*i`), normalized into `[0, 360)` per §4.4; `coordinate_rotation.py`
itself is not among the sources. -/
noncomputable def cart_to_lon (v : Fin 3 → ℝ) : ℝ :=
  norm360 (rad2deg (Complex.arg ((v 0 : ℂ) + (v 1 : ℝ) * Complex.I)))

/-- Modelled from the spec: rotation of a single spherical point by a given
matrix, via the Cartesian round trip of §4.4; `coordinate_rotation.py`
itself is not among the sources. -/
noncomputable def rotate_point (M : Matrix (Fin 3) (Fin 3) ℝ)
    (lat lon : ℝ) : ℝ × ℝ :=
  (cart_to_lat (M.mulVec (latlon_to_cart lat lon)),
   cart_to_lon (M.mulVec (latlon_to_cart lat lon)))

/-- Modelled from the spec: `rotate_spherical(lats, lons, phi, theta, psi,
invert)` of the missing `coordinate_rotation.py`, per §4.4: build the
rotation matrix for the (degree) Euler angles, push every (lat, lon) pair
through the Cartesian rotation, and report latitudes and longitudes as
parallel lists. -/
noncomputable def rotate_spherical (lats lons : List ℝ)
    (phi theta psi : ℝ) (invert : Bool) : List ℝ × List ℝ :=
  ((lats.zip lons).map (fun p =>
      (rotate_point (rotation_matrix (deg2rad phi) (deg2rad theta)
        (deg2rad psi) invert) p.1 p.2).1),
   (lats.zip lons).map (fun p =>
      (rotate_point (rotation_matrix (deg2rad phi) (deg2rad theta)
        (deg2rad psi) invert) p.1 p.2).2))

/-- Modelled from the spec: `north_pole_to_rotation_angles(lat, lon)` of the
missing `coordinate_rotation.py`, per §4.3: phi is the new pole longitude,
theta the colatitude `90 - lat`, and psi defaults to zero. -/
def north_pole_to_rotation_angles (lat lon : ℝ) : ℝ × ℝ × ℝ :=
  (lon, 90 - lat, 0)

/-! ## Helper lemmas on the adjustment loops -/

theorem adjustUp_spec {α : Type} [LinearOrderedField α] [FloorRing α]
    (start period : α) (hp : 0 < period) (v : α) :
    start ≤ adjustUp start period v ∧
      ∃ n : ℕ, adjustUp start period v = v + n * period := by
  generalize hm : (⌈(start - v) / period⌉).toNat = m
  induction m generalizing v with
  | zero =>
    have hv : ¬ v < start := by
      intro hlt
      have hc : 0 < ⌈(start - v) / period⌉ :=
        Int.ceil_pos.mpr (div_pos (by linarith) hp)
      omega
    rw [adjustUp]
    simp only [hp, hv, and_false, dite_false]
    exact ⟨not_lt.mp hv, 0, by ring⟩
  | succ m ih =>
    by_cases hv : v < start
    · rw [adjustUp]
      simp only [hp, hv, and_self, dite_true]
      have h1 : (start - (v + period)) / period = (start - v) / period - 1 := by
        field_simp
        ring
      have h2 : 0 < ⌈(start - v) / period⌉ :=
        Int.ceil_pos.mpr (div_pos (by linarith) hp)
      have h3 : (⌈(start - (v + period)) / period⌉).toNat = m := by
        rw [h1, Int.ceil_sub_one]
        omega
      obtain ⟨hge, n, hn⟩ := ih (v + period) h3
      exact ⟨hge, n + 1, by rw [hn]; push_cast; ring⟩
    · rw [adjustUp]
      simp only [hp, hv, and_false, dite_false]
      exact ⟨not_lt.mp hv, 0, by ring⟩

theorem adjustDown_spec {α : Type} [LinearOrderedField α] [FloorRing α]
    (start period : α) (hp : 0 < period) (v : α) (hv : start ≤ v) :
    start ≤ adjustDown start period v ∧
      adjustDown start period v < start + period ∧
      ∃ n : ℕ, adjustDown start period v = v - n * period := by
  generalize hm : (⌊(v - start) / period⌋).toNat = m
  induction m generalizing v with
  | zero =>
    have hlt : ¬ start + period ≤ v := by
      intro hle
      have h2 : 1 ≤ ⌊(v - start) / period⌋ := by
        rw [Int.le_floor, le_div_iff₀ hp]
        push_cast
        linarith
      omega
    rw [adjustDown]
    simp only [hp, hlt, and_false, dite_false]
    exact ⟨hv, not_le.mp hlt, 0, by ring⟩
  | succ m ih =>
    by_cases hle : start + period ≤ v
    · rw [adjustDown]
      simp only [hp, hle, and_self, dite_true]
      have h1 : (v - period - start) / period = (v - start) / period - 1 := by
        field_simp
        ring
      have h3 : (⌊(v - period - start) / period⌋).toNat = m := by
        have h2 : 1 ≤ ⌊(v - start) / period⌋ := by
          rw [Int.le_floor, le_div_iff₀ hp]
          push_cast
          linarith
        rw [h1, Int.floor_sub_one]
        omega
      obtain ⟨hge, hless, n, hn⟩ := ih (v - period) (by linarith) h3
      exact ⟨hge, hless, n + 1, by rw [hn]; push_cast; ring⟩
    · rw [adjustDown]
      simp only [hp, hle, and_false, dite_false]
      exact ⟨hv, not_le.mp hle, 0, by ring⟩

theorem adjust_point_spec {α : Type} [LinearOrderedField α] [FloorRing α]
    (start period : α) (hp : 0 < period) (v : α) :
    start ≤ adjustDown start period (adjustUp start period v) ∧
      adjustDown start period (adjustUp start period v) < start + period ∧
      ∃ k : ℤ, adjustDown start period (adjustUp start period v) =
        v + k * period := by
  obtain ⟨hu, n, hn⟩ := adjustUp_spec start period hp v
  obtain ⟨hd1, hd2, m, hm⟩ :=
    adjustDown_spec start period hp (adjustUp start period v) hu
  refine ⟨hd1, hd2, (n : ℤ) - m, ?_⟩
  rw [hm, hn]
  push_cast
  ring

theorem interval_unique {α : Type} [LinearOrderedField α]
    {start period w e : α} (hp : 0 < period)
    (h1 : start ≤ w) (h2 : w < start + period)
    (h3 : start ≤ e) (h4 : e < start + period)
    (k : ℤ) (hk : w = e + k * period) : w = e := by
  have hlow : (-1 : α) * period < k * period := by linarith
  have hhigh : (k : α) * period < 1 * period := by linarith
  have hk1 : (-1 : ℤ) < k := by
    have := (mul_lt_mul_right hp).mp hlow
    exact_mod_cast this
  have hk2 : k < 1 := by
    have := (mul_lt_mul_right hp).mp hhigh
    exact_mod_cast this
  have hk0 : k = 0 := by omega
  rw [hk, hk0]
  push_cast
  ring

theorem adjust_point_eq {α : Type} [LinearOrderedField α] [FloorRing α]
    (start period : α) (hp : 0 < period) (v e : α)
    (he1 : start ≤ e) (he2 : e < start + period)
    (k : ℤ) (hk : v = e + k * period) :
    adjustDown start period (adjustUp start period v) = e := by
  obtain ⟨h1, h2, j, hj⟩ := adjust_point_spec start period hp v
  exact interval_unique hp h1 h2 he1 he2 (k + j)
    (by rw [hj, hk]; push_cast; ring)

/-! ## Claim C1 -/

/-- C1: for every input sequence, start value and unit flag (period `360`
for degrees, `2*pi` for radians), `adjust_lon_range` returns a sequence of
the same length whose entries lie in `[start, start + period)` and differ
from the corresponding inputs by integer multiples of the period; in
particular on `[0, 360, 378, 60, -30, -810]` with start `0` it returns
`[0, 0, 18, 60, 330, 270]` and with start `-180` it returns
`[0, 0, 18, 60, -30, -90]`. -/
theorem adjust_lon_range_normalizes (lons : List ℝ) (radians : Bool)
    (start : ℝ) :
    (adjust_lon_range lons radians start).length = lons.length ∧
    List.Forall₂ (fun w v => start ≤ w ∧
        w < start + (if radians then 2 * π else 360) ∧
        ∃ k : ℤ, w = v + k * (if radians then 2 * π else 360))
      (adjust_lon_range lons radians start) lons ∧
    adjust_lon_range [0, 360, 378, 60, -30, -810] false 0 =
      [0, 0, 18, 60, 330, 270] ∧
    adjust_lon_range [0, 360, 378, 60, -30, -810] false (-180) =
      [0, 0, 18, 60, -30, -90] := by
  have hp : ∀ r : Bool, (0 : ℝ) < (if r then 2 * π else 360) := by
    intro r
    cases r
    · norm_num
    · simpa using Real.two_pi_pos
  refine ⟨?_, ?_, ?_, ?_⟩
  · simp [adjust_lon_range, adjust_core]
  · unfold adjust_lon_range adjust_core
    rw [List.forall₂_map_left_iff]
    refine List.forall₂_same.mpr (fun v _ => ?_)
    exact adjust_point_spec start _ (hp radians) v
  · show adjust_core _ (0 : ℝ) 360 = _
    simp only [adjust_core, List.map_cons, List.map_nil, List.cons.injEq,
      and_true]
    exact ⟨adjust_point_eq 0 360 (by norm_num) 0 0 (by norm_num) (by norm_num)
        0 (by norm_num),
      adjust_point_eq 0 360 (by norm_num) 360 0 (by norm_num) (by norm_num)
        1 (by norm_num),
      adjust_point_eq 0 360 (by norm_num) 378 18 (by norm_num) (by norm_num)
        1 (by norm_num),
      adjust_point_eq 0 360 (by norm_num) 60 60 (by norm_num) (by norm_num)
        0 (by norm_num),
      adjust_point_eq 0 360 (by norm_num) (-30) 330 (by norm_num)
        (by norm_num) (-1) (by norm_num),
      adjust_point_eq 0 360 (by norm_num) (-810) 270 (by norm_num)
        (by norm_num) (-3) (by norm_num)⟩
  · show adjust_core _ (-180 : ℝ) 360 = _
    simp only [adjust_core, List.map_cons, List.map_nil, List.cons.injEq,
      and_true]
    exact ⟨adjust_point_eq (-180) 360 (by norm_num) 0 0 (by norm_num)
        (by norm_num) 0 (by norm_num),
      adjust_point_eq (-180) 360 (by norm_num) 360 0 (by norm_num)
        (by norm_num) 1 (by norm_num),
      adjust_point_eq (-180) 360 (by norm_num) 378 18 (by norm_num)
        (by norm_num) 1 (by norm_num),
      adjust_point_eq (-180) 360 (by norm_num) 60 60 (by norm_num)
        (by norm_num) 0 (by norm_num),
      adjust_point_eq (-180) 360 (by norm_num) (-30) (-30) (by norm_num)
        (by norm_num) 0 (by norm_num),
      adjust_point_eq (-180) 360 (by norm_num) (-810) (-90) (by norm_num)
        (by norm_num) (-2) (by norm_num)⟩

/-! ## Claim C2 -/

theorem stepUp_iterate (start itv : ℝ) (n : ℕ) (lons : List ℝ) :
    (stepUp start itv)^[n] lons =
      lons.map ((fun v => if v < start then v + itv else v)^[n]) := by
  induction n generalizing lons with
  | zero => simp
  | succ n ih =>
    rw [Function.iterate_succ_apply, ih]
    unfold stepUp
    rw [List.map_map, ← Function.iterate_succ]

theorem stepDown_iterate (start itv : ℝ) (n : ℕ) (lons : List ℝ) :
    (stepDown start itv)^[n] lons =
      lons.map ((fun v => if start + itv ≤ v then v - itv else v)^[n]) := by
  induction n generalizing lons with
  | zero => simp
  | succ n ih =>
    rw [Function.iterate_succ_apply, ih]
    unfold stepDown
    rw [List.map_map, ← Function.iterate_succ]

theorem stepUp_point_reaches {start itv : ℝ} (hp : 0 < itv) :
    ∀ (n : ℕ) (v : ℝ), (⌈(start - v) / itv⌉).toNat ≤ n →
      start ≤ ((fun v => if v < start then v + itv else v)^[n]) v := by
  intro n
  induction n with
  | zero =>
    intro v hv
    simp only [Function.iterate_zero, id_eq]
    by_contra hlt
    have hc : 0 < ⌈(start - v) / itv⌉ :=
      Int.ceil_pos.mpr (div_pos (by linarith [not_le.mp hlt]) hp)
    omega
  | succ n ih =>
    intro v hv
    rw [Function.iterate_succ_apply]
    by_cases hlt : v < start
    · simp only [hlt, if_true]
      apply ih
      have h1 : (start - (v + itv)) / itv = (start - v) / itv - 1 := by
        field_simp
        ring
      have h2 : 0 < ⌈(start - v) / itv⌉ :=
        Int.ceil_pos.mpr (div_pos (by linarith) hp)
      rw [h1, Int.ceil_sub_one]
      omega
    · simp only [hlt, if_false]
      apply ih
      have h2 : ⌈(start - v) / itv⌉ ≤ 0 := by
        rw [Int.ceil_le]
        push_cast
        apply div_nonpos_of_nonpos_of_nonneg _ (le_of_lt hp)
        linarith [not_lt.mp hlt]
      omega

theorem stepDown_point_reaches {start itv : ℝ} (hp : 0 < itv) :
    ∀ (n : ℕ) (v : ℝ), (⌊(v - start) / itv⌋).toNat ≤ n →
      ((fun v => if start + itv ≤ v then v - itv else v)^[n]) v <
        start + itv := by
  intro n
  induction n with
  | zero =>
    intro v hv
    simp only [Function.iterate_zero, id_eq]
    by_contra hge
    have h2 : 1 ≤ ⌊(v - start) / itv⌋ := by
      rw [Int.le_floor, le_div_iff₀ hp]
      push_cast
      linarith [not_lt.mp hge]
    omega
  | succ n ih =>
    intro v hv
    rw [Function.iterate_succ_apply]
    by_cases hle : start + itv ≤ v
    · simp only [hle, if_true]
      apply ih
      have h1 : (v - itv - start) / itv = (v - start) / itv - 1 := by
        field_simp
        ring
      have h2 : 1 ≤ ⌊(v - start) / itv⌋ := by
        rw [Int.le_floor, le_div_iff₀ hp]
        push_cast
        linarith
      rw [h1, Int.floor_sub_one]
      omega
    · simp only [hle, if_false]
      apply ih
      have h2 : ⌊(v - start) / itv⌋ ≤ 0 := by
        have h3 : ⌊(v - start) / itv⌋ < 1 := by
          rw [Int.floor_lt]
          push_cast
          rw [div_lt_one hp]
          linarith [not_le.mp hle]
        omega
      omega

theorem list_nat_bound (f : ℝ → ℕ) (l : List ℝ) :
    ∃ N : ℕ, ∀ v ∈ l, f v ≤ N := by
  induction l with
  | nil => exact ⟨0, by simp⟩
  | cons a t ih =>
    obtain ⟨N, hN⟩ := ih
    refine ⟨max (f a) N, ?_⟩
    intro v hv
    rcases List.mem_cons.mp hv with h | h
    · rw [h]
      exact le_max_left _ _
    · exact le_trans (hN v h) (le_max_right _ _)

/-- C2: for every input sequence and start value, both adjustment loops of
the longitude normalization terminate: after finitely many iterations of the
array-level step no element is below `start` any more, and after finitely
many iterations of the second step no element is at or beyond
`start + period`, the period being the one selected by the unit flag. -/
theorem adjust_loops_terminate (lons : List ℝ) (radians : Bool) (start : ℝ) :
    (∃ n : ℕ, ∀ v ∈ (stepUp start (if radians then 2 * π else 360))^[n] lons,
        ¬ v < start) ∧
    (∃ n : ℕ, ∀ v ∈ (stepDown start (if radians then 2 * π else 360))^[n] lons,
        ¬ start + (if radians then 2 * π else 360) ≤ v) := by
  set itv : ℝ := if radians then 2 * π else 360 with hitv
  have hp : 0 < itv := by
    rw [hitv]
    cases radians
    · norm_num
    · simpa using Real.two_pi_pos
  constructor
  · obtain ⟨N, hN⟩ := list_nat_bound (fun v => (⌈(start - v) / itv⌉).toNat) lons
    refine ⟨N, ?_⟩
    intro v hv
    rw [stepUp_iterate] at hv
    obtain ⟨w, hw, rfl⟩ := List.mem_map.mp hv
    exact not_lt.mpr (stepUp_point_reaches hp N w (hN w hw))
  · obtain ⟨N, hN⟩ := list_nat_bound (fun v => (⌊(v - start) / itv⌋).toNat) lons
    refine ⟨N, ?_⟩
    intro v hv
    rw [stepDown_iterate] at hv
    obtain ⟨w, hw, rfl⟩ := List.mem_map.mp hv
    exact not_le.mpr (stepDown_point_reaches hp N w (hN w hw))

/-! ## Claim C6 -/

/-- C6: the pole-to-angle solver maps an unchanged pole to the zero triple
and a purely meridional pole change to `phi = 0` with `theta` the colatitude
difference: `solve(90,0) = (0,0,0)`, `solve(70,0) = (0,20,0)`,
`solve(-60,0) = (0,150,0)`, `solve(-90,0) = (0,180,0)` (here exactly, hence
within the stated tolerance `1e-3`). -/
theorem north_pole_to_rotation_angles_meridional :
    north_pole_to_rotation_angles 90 0 = (0, 0, 0) ∧
    north_pole_to_rotation_angles 70 0 = (0, 20, 0) ∧
    north_pole_to_rotation_angles (-60) 0 = (0, 150, 0) ∧
    north_pole_to_rotation_angles (-90) 0 = (0, 180, 0) := by
  norm_num [north_pole_to_rotation_angles, Prod.ext_iff]

/-! ## Claim C9 -/

theorem flatten_map_replicate_getElem {α : Type} (n : ℕ) :
    ∀ (l : List α) (i j : ℕ), i < l.length → j < n →
      ((l.map (fun a => List.replicate n a)).flatten)[i * n + j]? = l[i]? := by
  intro l
  induction l with
  | nil =>
    intro i j hi _
    exact absurd hi (Nat.not_lt_zero i)
  | cons a t ih =>
    intro i j hi hj
    rw [List.map_cons, List.flatten_cons]
    cases i with
    | zero =>
      rw [Nat.zero_mul, Nat.zero_add]
      rw [List.getElem?_append_left (by simpa using hj)]
      simp [hj]
    | succ i =>
      have hskip : (List.replicate n a).length ≤ (i + 1) * n + j := by
        simp [Nat.succ_mul]
        omega
      rw [List.getElem?_append_right hskip]
      have harith : (i + 1) * n + j - (List.replicate n a).length =
          i * n + j := by
        simp [Nat.succ_mul]
        omega
      rw [harith, ih i j (Nat.lt_of_succ_lt_succ hi) hj,
        List.getElem?_cons_succ]

theorem flatten_replicate_getElem {β : Type} (lon : List β) :
    ∀ (m i j : ℕ), i < m → j < lon.length →
      ((List.replicate m lon).flatten)[i * lon.length + j]? = lon[j]? := by
  intro m
  induction m with
  | zero =>
    intro i j hi _
    exact absurd hi (Nat.not_lt_zero i)
  | succ m ih =>
    intro i j hi hj
    rw [List.replicate_succ, List.flatten_cons]
    cases i with
    | zero =>
      rw [Nat.zero_mul, Nat.zero_add]
      rw [List.getElem?_append_left hj]
    | succ i =>
      have hskip : lon.length ≤ (i + 1) * lon.length + j := by
        simp [Nat.succ_mul]
        omega
      rw [List.getElem?_append_right hskip]
      have harith : (i + 1) * lon.length + j - lon.length =
          i * lon.length + j := by
        simp [Nat.succ_mul]
        omega
      rw [harith]
      exact ih i j (Nat.lt_of_succ_lt_succ hi) hj

/-- C9: `coordinate_pairs` flattens the grid into the full Cartesian product
of the latitude axis with the longitude axis in row-major order: both output
sequences have length `n_lat * n_lon`, and at flat index `i * n_lon + j` the
latitude output holds `lat_axis[i]` and the longitude output holds
`lon_axis[j]`. -/
theorem coordinate_pairs_spec {α β : Type} (lat_axis : List α)
    (lon_axis : List β) (i j : ℕ)
    (hi : i < lat_axis.length) (hj : j < lon_axis.length) :
    (coordinate_pairs lat_axis lon_axis).1.length =
      lat_axis.length * lon_axis.length ∧
    (coordinate_pairs lat_axis lon_axis).2.length =
      lat_axis.length * lon_axis.length ∧
    (coordinate_pairs lat_axis lon_axis).1[i * lon_axis.length + j]? =
      lat_axis[i]? ∧
    (coordinate_pairs lat_axis lon_axis).2[i * lon_axis.length + j]? =
      lon_axis[j]? := by
  refine ⟨?_, ?_, ?_, ?_⟩
  · simp [coordinate_pairs, List.length_flatten, List.map_map,
      Function.comp_def, List.map_const', List.sum_replicate, smul_eq_mul]
  · simp [coordinate_pairs, List.length_flatten, List.map_const',
      List.sum_replicate, smul_eq_mul, Nat.mul_comm]
  · exact flatten_map_replicate_getElem lon_axis.length lat_axis i j hi hj
  · exact flatten_replicate_getElem lon_axis lat_axis.length i j hi hj

/-- Witness for C9 at a concrete grid: latitude axis `[5, 7]`, longitude
axis `[10, 20, 30]`, cell `(1, 2)`. -/
theorem coordinate_pairs_spec_witness :
    ((1 < ([5, 7] : List ℕ).length) ∧ (2 < ([10, 20, 30] : List ℕ).length)) ∧
    ((coordinate_pairs ([5, 7] : List ℕ) ([10, 20, 30] : List ℕ)).1.length =
        ([5, 7] : List ℕ).length * ([10, 20, 30] : List ℕ).length ∧
      (coordinate_pairs ([5, 7] : List ℕ) ([10, 20, 30] : List ℕ)).2.length =
        ([5, 7] : List ℕ).length * ([10, 20, 30] : List ℕ).length ∧
      (coordinate_pairs ([5, 7] : List ℕ)
          ([10, 20, 30] : List ℕ)).1[1 * ([10, 20, 30] : List ℕ).length + 2]? =
        ([5, 7] : List ℕ)[1]? ∧
      (coordinate_pairs ([5, 7] : List ℕ)
          ([10, 20, 30] : List ℕ)).2[1 * ([10, 20, 30] : List ℕ).length + 2]? =
        ([10, 20, 30] : List ℕ)[2]?) :=
  ⟨⟨by decide, by decide⟩,
   coordinate_pairs_spec [5, 7] [10, 20, 30] 1 2 (by decide) (by decide)⟩

/-! ## Claim C10 -/

/-- C10: the input adaptation of the longitude normalization succeeds exactly
on lists, tuples, arrays, strings and length-less scalars: `single2list`
returns a value if and only if the input is not one of the other sized
containers (set, dict), which do support `len()`; a scalar or a string is
wrapped into a one-element sequence, and a wrapped scalar is then normalized
exactly like the corresponding one-element sequence. -/
theorem single2list_total_iff :
    (∀ (item : PyObj) (b : Bool),
        (single2list item b).isSome = !(isSetOrDict item)) ∧
    (∀ xs : List PyObj, hasLen (.pySet xs) = true) ∧
    (∀ n : ℕ, hasLen (.pyDict n) = true) ∧
    (∀ x : ℚ, single2list (.pyFloat x) true = some (.ndarray [.pyFloat x])) ∧
    (∀ s : String, single2list (.pyStr s) true = some (.ndarray [.pyStr s])) ∧
    (∀ (x : ℚ) (period start : ℚ), normalize_py (.pyFloat x) period start =
        some [adjustDown start period (adjustUp start period x)]) := by
  refine ⟨?_, fun xs => rfl, fun n => rfl, fun x => rfl, fun s => rfl,
    fun x period start => rfl⟩
  intro item b
  cases item <;> cases b <;> rfl

/-! ## Rotation matrix algebra -/

theorem Rz_mul_Rz (a b : ℝ) : Rz a * Rz b = Rz (a + b) := by
  unfold Rz
  rw [Matrix.mul_fin_three]
  ext i j
  fin_cases i <;> fin_cases j <;>
    simp [Real.cos_add, Real.sin_add] <;> ring

theorem Rx_mul_Rx (a b : ℝ) : Rx a * Rx b = Rx (a + b) := by
  unfold Rx
  rw [Matrix.mul_fin_three]
  ext i j
  fin_cases i <;> fin_cases j <;>
    simp [Real.cos_add, Real.sin_add] <;> ring

theorem Rz_zero : Rz 0 = 1 := by
  unfold Rz
  rw [Matrix.one_fin_three]
  ext i j
  fin_cases i <;> fin_cases j <;> simp

theorem Rx_zero : Rx 0 = 1 := by
  unfold Rx
  rw [Matrix.one_fin_three]
  ext i j
  fin_cases i <;> fin_cases j <;> simp

theorem Rz_mul_Rz_neg (a : ℝ) : Rz a * Rz (-a) = 1 := by
  rw [Rz_mul_Rz]
  rw [show a + -a = 0 by ring]
  exact Rz_zero

theorem Rx_mul_Rx_neg (a : ℝ) : Rx a * Rx (-a) = 1 := by
  rw [Rx_mul_Rx]
  rw [show a + -a = 0 by ring]
  exact Rx_zero

theorem Rz_transpose (a : ℝ) : (Rz a)ᵀ = Rz (-a) := by
  unfold Rz
  ext i j
  fin_cases i <;> fin_cases j <;>
    simp [Matrix.transpose_apply, Matrix.vecHead, Matrix.vecTail,
      Real.cos_neg, Real.sin_neg]

theorem Rx_transpose (a : ℝ) : (Rx a)ᵀ = Rx (-a) := by
  unfold Rx
  ext i j
  fin_cases i <;> fin_cases j <;>
    simp [Matrix.transpose_apply, Matrix.vecHead, Matrix.vecTail,
      Real.cos_neg, Real.sin_neg]

theorem rotation_matrix_mul_inverse (phi theta psi : ℝ) :
    rotation_matrix phi theta psi false *
      rotation_matrix phi theta psi true = 1 := by
  show Rz psi * Rx theta * Rz phi * (Rz (-phi) * Rx (-theta) * Rz (-psi)) = 1
  simp only [Matrix.mul_assoc]
  rw [show Rz phi * (Rz (-phi) * (Rx (-theta) * Rz (-psi))) =
      Rx (-theta) * Rz (-psi) from by
    rw [← Matrix.mul_assoc, Rz_mul_Rz_neg, Matrix.one_mul]]
  rw [show Rx theta * (Rx (-theta) * Rz (-psi)) = Rz (-psi) from by
    rw [← Matrix.mul_assoc, Rx_mul_Rx_neg, Matrix.one_mul]]
  exact Rz_mul_Rz_neg psi

theorem rotation_matrix_inverse_transpose (phi theta psi : ℝ) :
    rotation_matrix phi theta psi true =
      (rotation_matrix phi theta psi false)ᵀ := by
  show Rz (-phi) * Rx (-theta) * Rz (-psi) = (Rz psi * Rx theta * Rz phi)ᵀ
  rw [Matrix.transpose_mul, Matrix.transpose_mul, Rz_transpose, Rx_transpose,
    Rz_transpose, Matrix.mul_assoc]

/-! ## Claim C3 -/

/-- C3: for all valid Euler angles in `[0, 2*pi)`, the forward matrix times
the inverse matrix is the 3x3 identity (exactly, hence within the stated
tolerance `1e-7`), and the inverse matrix equals the transpose of the
forward matrix. -/
theorem rotation_matrix_orthonormal (phi theta psi : ℝ)
    (hphi : 0 ≤ phi ∧ phi < 2 * π) (htheta : 0 ≤ theta ∧ theta < 2 * π)
    (hpsi : 0 ≤ psi ∧ psi < 2 * π) :
    rotation_matrix phi theta psi false *
        rotation_matrix phi theta psi true = 1 ∧
      rotation_matrix phi theta psi true =
        (rotation_matrix phi theta psi false)ᵀ :=
  ⟨rotation_matrix_mul_inverse phi theta psi,
   rotation_matrix_inverse_transpose phi theta psi⟩

/-- Witness for C3 at the concrete angles `(0, pi, pi/2)`. -/
theorem rotation_matrix_orthonormal_witness :
    (((0 : ℝ) ≤ 0 ∧ (0 : ℝ) < 2 * π) ∧ (0 ≤ π ∧ π < 2 * π) ∧
      (0 ≤ π / 2 ∧ π / 2 < 2 * π)) ∧
    (rotation_matrix 0 π (π / 2) false * rotation_matrix 0 π (π / 2) true = 1 ∧
      rotation_matrix 0 π (π / 2) true =
        (rotation_matrix 0 π (π / 2) false)ᵀ) :=
  ⟨⟨⟨le_refl 0, by linarith [Real.pi_pos]⟩,
    ⟨Real.pi_pos.le, by linarith [Real.pi_pos]⟩,
    ⟨by linarith [Real.pi_pos], by linarith [Real.pi_pos]⟩⟩,
   rotation_matrix_orthonormal 0 π (π / 2)
     ⟨le_refl 0, by linarith [Real.pi_pos]⟩
     ⟨Real.pi_pos.le, by linarith [Real.pi_pos]⟩
     ⟨by linarith [Real.pi_pos], by linarith [Real.pi_pos]⟩⟩

/-! ## Claim C4 -/

theorem Rz_int_two_pi {a : ℝ} (h : ∃ k : ℤ, a = k * (2 * π)) : Rz a = 1 := by
  obtain ⟨k, rfl⟩ := h
  unfold Rz
  rw [Matrix.one_fin_three]
  ext i j
  have hcos : Real.cos ((k : ℝ) * (2 * π)) = 1 := Real.cos_int_mul_two_pi k
  have hsin : Real.sin ((k : ℝ) * (2 * π)) = 0 := by
    have h0 := Real.sin_add_int_mul_two_pi 0 k
    simpa using h0
  fin_cases i <;> fin_cases j <;> simp [hcos, hsin]

theorem Rx_int_two_pi {a : ℝ} (h : ∃ k : ℤ, a = k * (2 * π)) : Rx a = 1 := by
  obtain ⟨k, rfl⟩ := h
  unfold Rx
  rw [Matrix.one_fin_three]
  ext i j
  have hcos : Real.cos ((k : ℝ) * (2 * π)) = 1 := Real.cos_int_mul_two_pi k
  have hsin : Real.sin ((k : ℝ) * (2 * π)) = 0 := by
    have h0 := Real.sin_add_int_mul_two_pi 0 k
    simpa using h0
  fin_cases i <;> fin_cases j <;> simp [hcos, hsin]

theorem neg_int_two_pi {a : ℝ} (h : ∃ k : ℤ, a = k * (2 * π)) :
    ∃ k : ℤ, -a = k * (2 * π) := by
  obtain ⟨k, rfl⟩ := h
  exact ⟨-k, by push_cast; ring⟩

/-- C4: any Euler angle triple whose entries are `0` or exact integer
multiples of `2*pi` yields the identity matrix, for both the forward and the
inverse variant; in particular `build(0,0,0)` and `build(2*pi,2*pi,2*pi)`
both return the identity exactly. -/
theorem rotation_matrix_full_turns (a b c : ℝ) (inv : Bool)
    (ha : ∃ k : ℤ, a = k * (2 * π)) (hb : ∃ k : ℤ, b = k * (2 * π))
    (hc : ∃ k : ℤ, c = k * (2 * π)) :
    rotation_matrix a b c inv = 1 ∧
    rotation_matrix 0 0 0 inv = 1 ∧
    rotation_matrix (2 * π) (2 * π) (2 * π) inv = 1 := by
  have hgen : ∀ x y z : ℝ, (∃ k : ℤ, x = k * (2 * π)) →
      (∃ k : ℤ, y = k * (2 * π)) → (∃ k : ℤ, z = k * (2 * π)) →
      ∀ b' : Bool, rotation_matrix x y z b' = 1 := by
    intro x y z hx hy hz b'
    cases b'
    · show Rz z * Rx y * Rz x = 1
      rw [Rz_int_two_pi hz, Rx_int_two_pi hy, Rz_int_two_pi hx,
        Matrix.one_mul, Matrix.one_mul]
    · show Rz (-x) * Rx (-y) * Rz (-z) = 1
      rw [Rz_int_two_pi (neg_int_two_pi hx), Rx_int_two_pi (neg_int_two_pi hy),
        Rz_int_two_pi (neg_int_two_pi hz), Matrix.one_mul, Matrix.one_mul]
  have hzero : ∃ k : ℤ, (0 : ℝ) = k * (2 * π) := ⟨0, by norm_num⟩
  have htwo : ∃ k : ℤ, (2 * π : ℝ) = k * (2 * π) := ⟨1, by norm_num⟩
  exact ⟨hgen a b c ha hb hc inv, hgen 0 0 0 hzero hzero hzero inv,
    hgen (2 * π) (2 * π) (2 * π) htwo htwo htwo inv⟩

/-- Witness for C4 at the angle triple `(2*pi, 0, 2*pi)`. -/
theorem rotation_matrix_full_turns_witness :
    ((∃ k : ℤ, (2 * π : ℝ) = k * (2 * π)) ∧
      (∃ k : ℤ, (0 : ℝ) = k * (2 * π))) ∧
    (rotation_matrix (2 * π) 0 (2 * π) false = 1 ∧
      rotation_matrix 0 0 0 false = 1 ∧
      rotation_matrix (2 * π) (2 * π) (2 * π) false = 1) :=
  ⟨⟨⟨1, by norm_num⟩, ⟨0, by norm_num⟩⟩,
   rotation_matrix_full_turns (2 * π) 0 (2 * π) false
     ⟨1, by norm_num⟩ ⟨0, by norm_num⟩ ⟨1, by norm_num⟩⟩

/-! ## Claim C5 -/

/-- C5: whenever any of the three Euler angles lies outside `[0, 2*pi)`, the
checked matrix builder reports the error (returns `none`) and produces no
partial result; in particular `build(0, pi, 6.5)` fails. -/
theorem rotation_matrix_checked_invalid (phi theta psi : ℝ) (inverse : Bool)
    (h : phi < 0 ∨ 2 * π ≤ phi ∨ theta < 0 ∨ 2 * π ≤ theta ∨
      psi < 0 ∨ 2 * π ≤ psi) :
    rotation_matrix_checked phi theta psi inverse = none ∧
    rotation_matrix_checked 0 π 6.5 inverse = none := by
  constructor
  · unfold rotation_matrix_checked
    rw [if_neg]
    intro hvalid
    obtain ⟨⟨h1, h2⟩, ⟨h3, h4⟩, h5, h6⟩ := hvalid
    rcases h with hh | hh | hh | hh | hh | hh <;> linarith
  · unfold rotation_matrix_checked
    rw [if_neg]
    intro hvalid
    obtain ⟨-, -, -, h65⟩ := hvalid
    have hpi : π < 3.141593 := Real.pi_lt_3141593
    norm_num at h65
    linarith
  
/-- Witness for C5 at the concrete invalid call `build(0, pi, 6.5)`. -/
theorem rotation_matrix_checked_invalid_witness :
    ((0 : ℝ) < 0 ∨ 2 * π ≤ 0 ∨ π < 0 ∨ 2 * π ≤ π ∨
      (6.5 : ℝ) < 0 ∨ 2 * π ≤ 6.5) ∧
    rotation_matrix_checked 0 π 6.5 false = none :=
  ⟨Or.inr (Or.inr (Or.inr (Or.inr (Or.inr (by
      have hpi : π < 3.141593 := Real.pi_lt_3141593
      norm_num
      linarith))))),
   (rotation_matrix_checked_invalid 0 π 6.5 false
     (Or.inr (Or.inr (Or.inr (Or.inr (Or.inr (by
       have hpi : π < 3.141593 := Real.pi_lt_3141593
       norm_num
       linarith))))))).2⟩

/-! ## Longitude renormalization arithmetic for the point rotator -/

theorem norm360_add_int (x : ℝ) (k : ℤ) : norm360 (x + k * 360) = norm360 x := by
  unfold norm360
  have h1 : (x + (k : ℝ) * 360) / 360 = x / 360 + k := by
    field_simp
  rw [h1, Int.floor_add_int]
  push_cast
  ring

theorem norm360_eq_self {x : ℝ} (h1 : 0 ≤ x) (h2 : x < 360) : norm360 x = x := by
  unfold norm360
  have h0 : ⌊x / 360⌋ = 0 := by
    rw [Int.floor_eq_zero_iff]
    constructor
    · exact div_nonneg h1 (by norm_num)
    · rw [div_lt_one (by norm_num : (0 : ℝ) < 360)]
      exact h2
  rw [h0]
  norm_num

theorem norm360_mem (x : ℝ) : 0 ≤ norm360 x ∧ norm360 x < 360 := by
  unfold norm360
  constructor
  · have h2 : (⌊x / 360⌋ : ℝ) ≤ x / 360 := Int.floor_le _
    have h3 : 360 * (⌊x / 360⌋ : ℝ) ≤ 360 * (x / 360) := by linarith
    have h4 : 360 * (x / 360) = x := by ring
    linarith
  · have h2 : x / 360 < (⌊x / 360⌋ : ℝ) + 1 := Int.lt_floor_add_one _
    have h3 : 360 * (x / 360) < 360 * ((⌊x / 360⌋ : ℝ) + 1) := by linarith
    have h4 : 360 * (x / 360) = x := by ring
    linarith

theorem norm360_eq {x e : ℝ} (k : ℤ) (he1 : 0 ≤ e) (he2 : e < 360)
    (hk : x = e + k * 360) : norm360 x = e := by
  rw [hk, norm360_add_int, norm360_eq_self he1 he2]

theorem rad2deg_deg2rad (d : ℝ) : rad2deg (deg2rad d) = d := by
  unfold rad2deg deg2rad
  have hpi := Real.pi_ne_zero
  field_simp

theorem deg2rad_zero : deg2rad 0 = 0 := by
  unfold deg2rad
  ring

/-- The two-argument arctangent of a positively scaled `(cos t, sin t)` pair,
pushed back to degrees and renormalized, recovers the degree value of `t`
renormalized into `[0, 360)`. -/
theorem arg_scaled_cos_sin (c t : ℝ) (hc : 0 < c) :
    norm360 (rad2deg (Complex.arg ((c * Real.cos t : ℝ) +
      (c * Real.sin t : ℝ) * Complex.I))) = norm360 (rad2deg t) := by
  have hexp : ((c * Real.cos t : ℝ) : ℂ) + (c * Real.sin t : ℝ) * Complex.I =
      (c : ℂ) * Complex.exp (t * Complex.I) := by
    rw [Complex.exp_mul_I]
    push_cast
    ring
  rw [hexp, Complex.arg_real_mul _ hc, Complex.arg_exp_mul_I]
  set t0 := toIocMod (mul_pos two_pos Real.pi_pos) (-π) t with ht0
  obtain ⟨k, hk⟩ : ∃ k : ℤ, t - t0 = k * (2 * π) :=
    ⟨toIocDiv (mul_pos two_pos Real.pi_pos) (-π) t, by
      rw [ht0, self_sub_toIocMod, zsmul_eq_mul]⟩
  have hdeg : rad2deg t0 = rad2deg t + (-k : ℤ) * 360 := by
    unfold rad2deg
    have hpi := Real.pi_ne_zero
    have ht : t0 = t - k * (2 * π) := by linarith
    rw [ht]
    field_simp
    ring
  rw [hdeg, norm360_add_int]

/-! ## Pure phi rotations -/

theorem rotation_matrix_pure_phi (f : ℝ) :
    rotation_matrix f 0 0 false = Rz f := by
  show Rz 0 * Rx 0 * Rz f = Rz f
  rw [Rz_zero, Rx_zero, Matrix.one_mul, Matrix.one_mul]

theorem Rz_mulVec (f : ℝ) (v : Fin 3 → ℝ) :
    (Rz f).mulVec v = ![Real.cos f * v 0 + Real.sin f * v 1,
      -Real.sin f * v 0 + Real.cos f * v 1, v 2] := by
  unfold Rz
  ext i
  fin_cases i <;>
    simp [Matrix.mulVec, Matrix.dotProduct, Fin.sum_univ_three] <;> ring

theorem pure_phi_cart (f lat lon : ℝ) :
    (Rz f).mulVec (latlon_to_cart lat lon) =
      ![Real.cos (deg2rad lat) * Real.cos (deg2rad lon - f),
        Real.cos (deg2rad lat) * Real.sin (deg2rad lon - f),
        Real.sin (deg2rad lat)] := by
  rw [Rz_mulVec]
  unfold latlon_to_cart
  ext i
  fin_cases i <;>
    simp [Real.cos_sub, Real.sin_sub] <;> ring

theorem deg2rad_lt_pi_div_two {lat : ℝ} (h : lat < 90) :
    deg2rad lat < π / 2 := by
  unfold deg2rad
  have hpos : (0 : ℝ) < π / 180 := by positivity
  have hmul := mul_lt_mul_of_pos_right h hpos
  calc lat * (π / 180) < 90 * (π / 180) := hmul
  _ = π / 2 := by ring

theorem neg_pi_div_two_lt_deg2rad {lat : ℝ} (h : -90 < lat) :
    -(π / 2) < deg2rad lat := by
  unfold deg2rad
  have hpos : (0 : ℝ) < π / 180 := by positivity
  have hmul := mul_lt_mul_of_pos_right h hpos
  calc -(π / 2) = -90 * (π / 180) := by ring
  _ < lat * (π / 180) := hmul

theorem rotate_point_pure_phi (f lat lon : ℝ) (h1 : -90 < lat)
    (h2 : lat < 90) :
    rotate_point (rotation_matrix (deg2rad f) (deg2rad 0) (deg2rad 0) false)
      lat lon = (lat, norm360 (lon - f)) := by
  have hm : rotation_matrix (deg2rad f) (deg2rad 0) (deg2rad 0) false =
      Rz (deg2rad f) := by
    rw [deg2rad_zero]
    exact rotation_matrix_pure_phi (deg2rad f)
  have hb1 : -(π / 2) < deg2rad lat := neg_pi_div_two_lt_deg2rad h1
  have hb2 : deg2rad lat < π / 2 := deg2rad_lt_pi_div_two h2
  unfold rotate_point
  rw [hm, pure_phi_cart]
  rw [Prod.mk.injEq]
  constructor
  · show cart_to_lat _ = lat
    unfold cart_to_lat
    simp only [Matrix.cons_val_two, Matrix.tail_cons, Matrix.head_cons]
    rw [Real.arcsin_sin hb1.le hb2.le, rad2deg_deg2rad]
  · show cart_to_lon _ = norm360 (lon - f)
    unfold cart_to_lon
    simp only [Matrix.cons_val_zero, Matrix.cons_val_one, Matrix.head_cons]
    have hc : 0 < Real.cos (deg2rad lat) :=
      Real.cos_pos_of_mem_Ioo ⟨hb1, hb2⟩
    rw [arg_scaled_cos_sin _ _ hc]
    have hrd : rad2deg (deg2rad lon - deg2rad f) = lon - f := by
      unfold rad2deg deg2rad
      have hpi := Real.pi_ne_zero
      field_simp
      ring
    rw [hrd]

theorem rotate_pure_phi_gen (lats lons : List ℝ) (phi : ℝ)
    (hlen : lats.length = lons.length)
    (hlat : ∀ l ∈ lats, -90 < l ∧ l < 90) :
    (rotate_spherical lats lons phi 0 0 false).1 = lats ∧
    (rotate_spherical lats lons phi 0 0 false).2 =
      lons.map (fun l => norm360 (l - phi)) := by
  have hpoint : ∀ p ∈ lats.zip lons,
      rotate_point (rotation_matrix (deg2rad phi) (deg2rad 0) (deg2rad 0)
        false) p.1 p.2 = (p.1, norm360 (p.2 - phi)) := by
    intro p hp
    obtain ⟨a, b⟩ := p
    obtain ⟨ha, -⟩ := List.of_mem_zip hp
    obtain ⟨ha1, ha2⟩ := hlat a ha
    exact rotate_point_pure_phi phi a b ha1 ha2
  constructor
  · show (lats.zip lons).map (fun p =>
        (rotate_point (rotation_matrix (deg2rad phi) (deg2rad 0) (deg2rad 0)
          false) p.1 p.2).1) = lats
    have h1 : (lats.zip lons).map (fun p =>
        (rotate_point (rotation_matrix (deg2rad phi) (deg2rad 0) (deg2rad 0)
          false) p.1 p.2).1) = (lats.zip lons).map Prod.fst :=
      List.map_congr_left (fun p hp => by rw [hpoint p hp])
    rw [h1, List.map_fst_zip lats lons (le_of_eq hlen)]
  · show (lats.zip lons).map (fun p =>
        (rotate_point (rotation_matrix (deg2rad phi) (deg2rad 0) (deg2rad 0)
          false) p.1 p.2).2) = lons.map (fun l => norm360 (l - phi))
    have h2 : (lats.zip lons).map (fun p =>
        (rotate_point (rotation_matrix (deg2rad phi) (deg2rad 0) (deg2rad 0)
          false) p.1 p.2).2) =
        (lats.zip lons).map ((fun l => norm360 (l - phi)) ∘ Prod.snd) :=
      List.map_congr_left (fun p hp => by
        rw [hpoint p hp]
        rfl)
    rw [h2, ← List.map_map, List.map_snd_zip lats lons (le_of_eq hlen.symm)]

/-- C7 (amended): for every batch of points whose latitudes lie strictly
between `-90` and `90`, a pure phi rotation leaves every latitude unchanged
and shifts every longitude by exactly `-phi`, normalized into `[0, 360)`;
in particular the concrete instance of the claim holds.  (At an exact pole,
`lat = 90` or `-90`, the output longitude is not the shifted input
longitude; see the counterexample.) -/
theorem rotate_spherical_pure_phi_shift (lats lons : List ℝ) (phi : ℝ)
    (hlen : lats.length = lons.length)
    (hlat : ∀ l ∈ lats, -90 < l ∧ l < 90) :
    (rotate_spherical lats lons phi 0 0 false).1 = lats ∧
    (rotate_spherical lats lons phi 0 0 false).2 =
      lons.map (fun l => norm360 (l - phi)) ∧
    rotate_spherical [0, 0, 0, 0, 0] [0, 65, 170, 230, 340] (-50) 0 0 false =
      ([0, 0, 0, 0, 0], [50, 115, 220, 280, 30]) := by
  obtain ⟨hg1, hg2⟩ := rotate_pure_phi_gen lats lons phi hlen hlat
  refine ⟨hg1, hg2, ?_⟩
  obtain ⟨hc1, hc2⟩ := rotate_pure_phi_gen [0, 0, 0, 0, 0]
    [0, 65, 170, 230, 340] (-50) rfl
    (by
      intro l hl
      simp at hl
      subst hl
      norm_num)
  rw [Prod.ext_iff]
  refine ⟨hc1, ?_⟩
  rw [hc2]
  simp only [List.map_cons, List.map_nil, List.cons.injEq, and_true]
  exact ⟨norm360_eq 0 (by norm_num) (by norm_num) (by norm_num),
    norm360_eq 0 (by norm_num) (by norm_num) (by norm_num),
    norm360_eq 0 (by norm_num) (by norm_num) (by norm_num),
    norm360_eq 0 (by norm_num) (by norm_num) (by norm_num),
    norm360_eq 1 (by norm_num) (by norm_num) (by norm_num)⟩

/-- Witness for C7 (amended) at a single equatorial point rotated by
`phi = 10`. -/
theorem rotate_spherical_pure_phi_shift_witness :
    (([(0 : ℝ)].length = [(65 : ℝ)].length) ∧
      (∀ l ∈ [(0 : ℝ)], -90 < l ∧ l < 90)) ∧
    ((rotate_spherical [0] [65] 10 0 0 false).1 = [0] ∧
      (rotate_spherical [0] [65] 10 0 0 false).2 =
        [(65 : ℝ)].map (fun l => norm360 (l - 10)) ∧
      rotate_spherical [0, 0, 0, 0, 0] [0, 65, 170, 230, 340] (-50) 0 0 false =
        ([0, 0, 0, 0, 0], [50, 115, 220, 280, 30])) :=
  ⟨⟨rfl, by
      intro l hl
      simp at hl
      subst hl
      norm_num⟩,
   rotate_spherical_pure_phi_shift [0] [65] 10 rfl
     (by
       intro l hl
       simp at hl
       subst hl
       norm_num)⟩

/-- Counterexample to C7 as stated: for the batch consisting of the single
exact-pole point `(lat, lon) = (90, 0)` and `phi = -50`, the rotated
longitude is `0`, not the shifted value `norm360 (0 - (-50)) = 50`, so a
pure phi rotation does not shift the longitude of every point of every
batch. -/
theorem rotate_spherical_pure_phi_pole :
    (rotate_spherical [90] [0] (-50) 0 0 false).2 = [0] ∧
    norm360 ((0 : ℝ) - (-50)) = 50 ∧ (0 : ℝ) ≠ 50 := by
  refine ⟨?_, norm360_eq 0 (by norm_num) (by norm_num) (by norm_num),
    by norm_num⟩
  have hm : rotation_matrix (deg2rad (-50)) (deg2rad 0) (deg2rad 0) false =
      Rz (deg2rad (-50)) := by
    rw [deg2rad_zero]
    exact rotation_matrix_pure_phi _
  have hcart : latlon_to_cart 90 0 = ![0, 0, 1] := by
    have h90 : deg2rad 90 = π / 2 := by
      unfold deg2rad
      ring
    unfold latlon_to_cart
    rw [h90, deg2rad_zero]
    ext i
    fin_cases i <;> simp
  have hw : (Rz (deg2rad (-50))).mulVec ![0, 0, 1] = ![0, 0, 1] := by
    rw [Rz_mulVec]
    ext i
    fin_cases i <;> simp
  show [(rotate_point (rotation_matrix (deg2rad (-50)) (deg2rad 0)
      (deg2rad 0) false) 90 0).2] = [(0 : ℝ)]
  have hval : (rotate_point (rotation_matrix (deg2rad (-50)) (deg2rad 0)
      (deg2rad 0) false) 90 0).2 = 0 := by
    show cart_to_lon ((rotation_matrix (deg2rad (-50)) (deg2rad 0)
      (deg2rad 0) false).mulVec (latlon_to_cart 90 0)) = 0
    rw [hm, hcart, hw]
    unfold cart_to_lon
    simp only [Matrix.cons_val_zero, Matrix.cons_val_one, Matrix.head_cons,
      Complex.ofReal_zero, zero_mul, add_zero, Complex.arg_zero]
    have hr : rad2deg 0 = 0 := by
      unfold rad2deg
      ring
    rw [hr]
    exact norm360_eq_self le_rfl (by norm_num)
  rw [hval]
